import Mathlib

/-!
Shallow embedding of the godash board-analysis engine (`src/analysis.js`)
and proofs about it.

The JS module represents a board as an immutable map from positions
(`List.of(x, y)` of numbers) to stone values (`'black'`, `'white'`), plus a
`SIZE_KEY` entry holding the size.  We embed positions as `Int × Int`, stone
values as `String`, the map as a function `Pos → Option String` (`none` models
the absent key, i.e. the JS `EMPTY = null` default of `board.get(position,
EMPTY)`), and the `SIZE_KEY` entry as a `size` field.  Thrown JS strings become
`Except String` errors carrying the exact message of the source.
-/

namespace Godash

/-- Positions, the JS `List.of(x, y)` pairs of numbers. -/
abbrev Pos := Int × Int

/-- Value on a board representing a black stone (`BLACK = 'black'`). -/
def BLACK : String := "black"

/-- Value on a board representing a white stone (`WHITE = 'white'`). -/
def WHITE : String := "white"

/-- A board: the `SIZE_KEY` entry plus the mapping from positions to stone
values; `stones q = none` models absence of the key `q`. -/
@[ext] structure Board where
  size : Int
  stones : Pos → Option String

/-- `board.get(position, EMPTY)`. -/
def Board.get (board : Board) (position : Pos) : Option String :=
  board.stones position

/-- `board.has(position)`. -/
def Board.has (board : Board) (position : Pos) : Bool :=
  (board.stones position).isSome

/-- `board.set(position, color)` of the immutable map: a new board. -/
def Board.set (board : Board) (position : Pos) (color : String) : Board :=
  ⟨board.size, fun q => if q = position then some color else board.stones q⟩

/-- `board.delete(position)` of the immutable map: a new board. -/
def Board.delete (board : Board) (position : Pos) : Board :=
  ⟨board.size, fun q => if q = position then none else board.stones q⟩

/-- A linear order on positions used to embed the (unspecified but
deterministic) iteration order of the immutable-js sets: first by the first
coordinate, then by the second. -/
def posLe (a b : Pos) : Prop :=
  a.1 < b.1 ∨ (a.1 = b.1 ∧ a.2 ≤ b.2)

instance : DecidableRel posLe := fun a b => by
  unfold posLe; exact inferInstance

instance : IsTrans Pos posLe :=
  ⟨by
    rintro ⟨a1, a2⟩ ⟨b1, b2⟩ ⟨c1, c2⟩ hab hbc
    simp only [posLe] at *
    omega⟩

instance : IsAntisymm Pos posLe :=
  ⟨by
    rintro ⟨a1, a2⟩ ⟨b1, b2⟩ hab hba
    simp only [posLe, Prod.mk.injEq] at *
    omega⟩

instance : IsTotal Pos posLe :=
  ⟨by
    rintro ⟨a1, a2⟩ ⟨b1, b2⟩
    simp only [posLe]
    omega⟩

/-- The elements of a set listed in `posLe` order, embedding the
(deterministic) iteration order of the immutable-js sets.  Uses insertion sort
so that the definition evaluates inside the kernel. -/
def sortedPos (s : Finset Pos) : List Pos :=
  Quot.liftOn s.val (fun l => l.insertionSort posLe)
    (fun _ _ h => List.eq_of_perm_of_sorted
      ((List.perm_insertionSort posLe _).trans
        (h.trans (List.perm_insertionSort posLe _).symm))
      (List.sorted_insertionSort posLe _)
      (List.sorted_insertionSort posLe _))

/-- The first element of a set, embedding the JS `set.first()`. -/
def firstPos (s : Finset Pos) : Option Pos :=
  (sortedPos s).head?

/-- `check = compose(curry(Math.min, 2)(size - 1), curry(Math.max, 2)(0))`:
clamp a coordinate onto the board. -/
def check (size i : Int) : Int :=
  min (size - 1) (max 0 i)

/-- `adjacentPositions(board, position)`: the four clamped neighbor candidates
`(x, y+1)`, `(x, y-1)`, `(x+1, y)`, `(x-1, y)`, minus the position itself. -/
def adjacentPositions (board : Board) (position : Pos) : Finset Pos :=
  let size := board.size
  let x := position.1
  let y := position.2
  ({(check size x, check size (y + 1)),
    (check size x, check size (y - 1)),
    (check size (x + 1), check size y),
    (check size (x - 1), check size y)} : Finset Pos) \ {position}

/-- `matchingAdjacentPositions(board, position, color)`.  The outer `Option`
models the JS `undefined` check: `none` is the call with the `color` argument
omitted, in which case the color defaults to `board.get(position, EMPTY)`;
`some v` passes the value `v` explicitly (`some none` is the explicit
`EMPTY`). -/
def matchingAdjacentPositions (board : Board) (position : Pos)
    (color : Option (Option String)) : Finset Pos :=
  let c := match color with
    | none => board.get position
    | some v => v
  (adjacentPositions board position).filter (fun pos => board.get pos = c)

/-- One iteration state of the `group` while-loop.  Each step takes the first
element `current` of `queue`, adds it to `found`, and extends the queue with
`matchingAdjacentPositions(board, current)` minus what was already found.  The
JS loop runs until the queue is empty; the embedding consumes one unit of fuel
per iteration, and `group` supplies enough fuel, which is proved adequate
below. -/
def groupLoop (board : Board) : Nat → Finset Pos → Finset Pos → Finset Pos
  | 0, found, _queue => found
  | fuel + 1, found, queue =>
    match firstPos queue with
    | none => found
    | some current =>
      groupLoop board fuel (insert current found)
        ((queue.erase current) ∪
          ((matchingAdjacentPositions board current none) \ (insert current found)))

/-- All values the clamp `check size` can produce. -/
def intRange (size : Int) : Finset Int :=
  (Finset.range size.toNat).image (fun k : Nat => (k : Int))

/-- Coordinates reachable by clamping: the board range plus `size - 1` (the
latter matters only for non-positive sizes). -/
def clampSet (size : Int) : Finset Int :=
  intRange size ∪ {size - 1}

/-- All positions the adjacency computation can ever produce. -/
def clampUniverse (size : Int) : Finset Pos :=
  clampSet size ×ˢ clampSet size

/-- `group(board, position)`: flood-fill from `position` with a found-set and a
queue, starting from the singleton queue `{position}`. -/
def group (board : Board) (position : Pos) : Finset Pos :=
  groupLoop board (insert position (clampUniverse board.size)).card ∅ {position}

/-- `liberties(board, position)`: the size of the union, over the group of
`position`, of each member's empty adjacent positions. -/
def liberties (board : Board) (position : Pos) : Nat :=
  ((group board position).biUnion
    (fun pos => matchingAdjacentPositions board pos (some none))).card

/-- `oppositeColor(color)`; throws `'Must pass in a color'` on any value other
than `BLACK` and `WHITE`. -/
def oppositeColor (color : String) : Except String String :=
  if color ≠ BLACK ∧ color ≠ WHITE then Except.error "Must pass in a color"
  else Except.ok (if color = BLACK then WHITE else BLACK)

/-- `isLegalMove(board, position, color)`: the hypothetical placement has a
liberty, or some adjacent enemy group is down to its last liberty.  Both
operands are computed before the disjunction, so the `oppositeColor` failure
propagates regardless of the first operand. -/
def isLegalMove (board : Board) (position : Pos) (color : String) :
    Except String Bool :=
  let will_have_liberty :=
    decide (0 < liberties (board.set position color) position)
  match oppositeColor color with
  | Except.error e => Except.error e
  | Except.ok opp =>
    let will_kill_something :=
      decide (∃ pos ∈ matchingAdjacentPositions board position (some (some opp)),
        liberties board pos = 1)
    Except.ok (will_have_liberty || will_kill_something)

/-- `emptyBoard(size)`; throws unless the size is a positive integer (the
number/integer tests of the source collapse over `Int`). -/
def emptyBoard (size : Int) : Except String Board :=
  if size ≤ 0 then
    Except.error "An empty board must be created from a positive integer."
  else Except.ok ⟨size, fun _ => none⟩

/-- `removeMoves(board, positions)`: the fold of `delete` over the set, taken
in the iteration order embedded by `posLe`. -/
def removeMoves (board : Board) (positions : Finset Pos) : Board :=
  (sortedPos positions).foldl (fun acc position => acc.delete position) board

/-- The `killed` set computed inside `addMove`: the union, over adjacent
positions matching the opposite color, of that neighbor's group when its
liberty count is exactly 1. -/
def killedBy (board : Board) (position : Pos) (opp : String) : Finset Pos :=
  (matchingAdjacentPositions board position (some (some opp))).biUnion
    (fun pos => if liberties board pos = 1 then group board pos else ∅)

/-- `addMove(board, position, color)`: legality check, occupancy check, then
remove the killed groups and place the stone. -/
def addMove (board : Board) (position : Pos) (color : String) :
    Except String Board :=
  match isLegalMove board position color with
  | Except.error e => Except.error e
  | Except.ok legal =>
    if !legal then Except.error "Not a valid position"
    else if board.has position then Except.error "There is already a stone there"
    else match oppositeColor color with
      | Except.error e => Except.error e
      | Except.ok opp =>
        Except.ok ((removeMoves board (killedBy board position opp)).set position color)

/-- Spec-side reading of `deleteAll(board, positions)` (spec section 4.1): a
board with every listed position made empty, stated pointwise.  To be compared
with the source's `removeMoves` fold of `delete`. -/
def deleteAllSpec (board : Board) (positions : Finset Pos) : Board :=
  ⟨board.size, fun q => if q ∈ positions then none else board.stones q⟩

/-- Spec-side reading of the `killed` set of `addMove`: the union, over each
geometric neighbor of `position` that holds the opposite color, of that
neighbor's group when the group's liberty count on the pre-move board is
exactly 1, and nothing otherwise. -/
def killedSpec (board : Board) (position : Pos) (opp : String) : Finset Pos :=
  (adjacentPositions board position).biUnion
    (fun q => if board.get q = some opp ∧ liberties board q = 1
      then group board q else ∅)

/-- One flood-fill step: `q` is adjacent to `x` and carries the same board
value as `x`. -/
def SameStep (board : Board) (x q : Pos) : Prop :=
  q ∈ matchingAdjacentPositions board x none

/-- Flood-fill reachability. -/
def Reach (board : Board) (p q : Pos) : Prop :=
  Relation.ReflTransGen (SameStep board) p q

/-- Claim-side connectivity: `q` is joined to `position` by a chain of
orthogonally adjacent positions, each carrying the same board value as
`position`. -/
def ConnectedFrom (board : Board) (position q : Pos) : Prop :=
  Relation.ReflTransGen
    (fun a b => b ∈ adjacentPositions board a ∧ board.get b = board.get position)
    position q

instance {ε α : Type} [DecidableEq ε] [DecidableEq α] : DecidableEq (Except ε α) :=
  fun a b =>
    match a, b with
    | Except.error e, Except.error f => decidable_of_iff (e = f) (by simp)
    | Except.ok x, Except.ok y => decidable_of_iff (x = y) (by simp)
    | Except.error _, Except.ok _ => Decidable.isFalse (by simp)
    | Except.ok _, Except.error _ => Decidable.isFalse (by simp)

/-- Coordinates of the position lie in `[0, size)`. -/
def inBounds (size : Int) (p : Pos) : Prop :=
  0 ≤ p.1 ∧ p.1 < size ∧ 0 ≤ p.2 ∧ p.2 < size

instance (size : Int) (p : Pos) : Decidable (inBounds size p) := by
  unfold inBounds; infer_instance

/-- The position sits in a corner of the board. -/
def isCorner (size : Int) (p : Pos) : Prop :=
  (p.1 = 0 ∨ p.1 = size - 1) ∧ (p.2 = 0 ∨ p.2 = size - 1)

/-- The position sits on the outer ring of the board. -/
def isBoundary (size : Int) (p : Pos) : Prop :=
  p.1 = 0 ∨ p.1 = size - 1 ∨ p.2 = 0 ∨ p.2 = size - 1

instance (size : Int) (p : Pos) : Decidable (isCorner size p) := by
  unfold isCorner; infer_instance

instance (size : Int) (p : Pos) : Decidable (isBoundary size p) := by
  unfold isBoundary; infer_instance

/-! ### Basic lemmas about the board store -/

theorem get_set (board : Board) (position : Pos) (color : String) (q : Pos) :
    (board.set position color).get q =
      if q = position then some color else board.get q := rfl

theorem size_set (board : Board) (position : Pos) (color : String) :
    (board.set position color).size = board.size := rfl

theorem get_delete (board : Board) (position : Pos) (q : Pos) :
    (board.delete position).get q =
      if q = position then none else board.get q := rfl

/-! ### The sorted enumeration of a set -/

theorem coe_sortedPos (s : Finset Pos) : (sortedPos s : Multiset Pos) = s.val := by
  obtain ⟨m, hm⟩ := s
  induction m using Quotient.inductionOn with
  | h l => exact Quot.sound (List.perm_insertionSort posLe l)

theorem mem_sortedPos {s : Finset Pos} {a : Pos} : a ∈ sortedPos s ↔ a ∈ s := by
  rw [← Multiset.mem_coe, coe_sortedPos]
  rfl

theorem firstPos_eq_none {s : Finset Pos} (h : firstPos s = none) : s = ∅ := by
  rw [firstPos] at h
  cases hl : sortedPos s with
  | nil =>
    have : (s.val : Multiset Pos) = 0 := by
      rw [← coe_sortedPos, hl]; rfl
    exact Finset.val_eq_zero.mp this
  | cons a t => rw [hl] at h; simp at h

theorem firstPos_mem {s : Finset Pos} {c : Pos} (h : firstPos s = some c) :
    c ∈ s := by
  rw [firstPos] at h
  cases hl : sortedPos s with
  | nil => rw [hl] at h; simp at h
  | cons a t =>
    rw [hl] at h
    simp only [List.head?_cons, Option.some.injEq] at h
    subst h
    exact mem_sortedPos.mp (by rw [hl]; exact List.mem_cons_self _ _)

/-! ### removeMoves -/

theorem foldl_delete_get (l : List Pos) (board : Board) (q : Pos) :
    (l.foldl (fun acc position => acc.delete position) board).get q =
      if q ∈ l then none else board.get q := by
  induction l generalizing board with
  | nil => simp
  | cons a t ih =>
    rw [List.foldl_cons, ih]
    by_cases h1 : q ∈ t <;> by_cases h2 : q = a <;>
      simp [h1, h2, Board.delete, Board.get]

theorem foldl_delete_size (l : List Pos) (board : Board) :
    (l.foldl (fun acc position => acc.delete position) board).size = board.size := by
  induction l generalizing board with
  | nil => rfl
  | cons a t ih => rw [List.foldl_cons, ih]; rfl

theorem removeMoves_get (board : Board) (positions : Finset Pos) (q : Pos) :
    (removeMoves board positions).get q =
      if q ∈ positions then none else board.get q := by
  rw [removeMoves, foldl_delete_get]
  simp [mem_sortedPos]

theorem removeMoves_size (board : Board) (positions : Finset Pos) :
    (removeMoves board positions).size = board.size :=
  foldl_delete_size _ _

theorem removeMoves_eq_deleteAllSpec (board : Board) (positions : Finset Pos) :
    removeMoves board positions = deleteAllSpec board positions := by
  refine Board.ext (removeMoves_size board positions) (funext fun q => ?_)
  have := removeMoves_get board positions q
  rw [Board.get, Board.get] at this
  rw [this]
  rfl

/-! ### The clamp and adjacency -/

theorem check_eq_self {n v : Int} (h0 : 0 ≤ v) (h1 : v ≤ n - 1) :
    check n v = v := by
  rw [check, max_eq_right h0, min_eq_right h1]

theorem check_eq_top {n v : Int} (h0 : 0 ≤ v) (h : n - 1 ≤ v) :
    check n v = n - 1 := by
  rw [check, max_eq_right h0, min_eq_left h]

theorem check_eq_zero {n v : Int} (hv : v ≤ 0) (hn : 1 ≤ n) :
    check n v = 0 := by
  rw [check, max_eq_left hv, min_eq_right (by omega)]

theorem check_bounds {n : Int} (hn : 1 ≤ n) (v : Int) :
    0 ≤ check n v ∧ check n v < n := by
  rw [check, min_def, max_def]
  split_ifs <;> omega

theorem mem_intRange {n v : Int} : v ∈ intRange n ↔ 0 ≤ v ∧ v < n := by
  simp only [intRange, Finset.mem_image, Finset.mem_range]
  constructor
  · rintro ⟨k, hk, rfl⟩
    omega
  · intro h
    exact ⟨v.toNat, by omega, by omega⟩

theorem check_mem_clampSet (n v : Int) : check n v ∈ clampSet n := by
  rw [clampSet, Finset.mem_union, Finset.mem_singleton, mem_intRange, check,
    min_def, max_def]
  split_ifs <;> omega

theorem adjacent_subset_clampUniverse (board : Board) (position : Pos) :
    adjacentPositions board position ⊆ clampUniverse board.size := by
  intro q hq
  have hq' := (Finset.mem_sdiff.mp hq).1
  simp only [adjacentPositions, Finset.mem_insert, Finset.mem_singleton] at hq'
  rcases hq' with h | h | h | h <;> subst h <;>
    exact Finset.mem_product.mpr ⟨check_mem_clampSet _ _, check_mem_clampSet _ _⟩

theorem adjacentPositions_size_eq {b1 b2 : Board} (h : b1.size = b2.size)
    (position : Pos) : adjacentPositions b1 position = adjacentPositions b2 position := by
  simp only [adjacentPositions, h]

theorem self_not_mem_adjacent (board : Board) (position : Pos) :
    position ∉ adjacentPositions board position := by
  intro h
  exact (Finset.mem_sdiff.mp h).2 (Finset.mem_singleton_self position)

/-! ### Matching adjacency -/

theorem mem_matching_undef {board : Board} {x q : Pos} :
    q ∈ matchingAdjacentPositions board x none ↔
      q ∈ adjacentPositions board x ∧ board.get q = board.get x := by
  simp [matchingAdjacentPositions, Finset.mem_filter]

theorem mem_matching_some {board : Board} {x q : Pos} {v : Option String} :
    q ∈ matchingAdjacentPositions board x (some v) ↔
      q ∈ adjacentPositions board x ∧ board.get q = v := by
  simp [matchingAdjacentPositions, Finset.mem_filter]

theorem matching_subset_adjacent (board : Board) (x : Pos)
    (c : Option (Option String)) :
    matchingAdjacentPositions board x c ⊆ adjacentPositions board x :=
  fun _ hq => (Finset.mem_filter.mp hq).1

/-! ### The flood-fill loop -/

theorem groupLoop_zero (board : Board) (found queue : Finset Pos) :
    groupLoop board 0 found queue = found := rfl

theorem groupLoop_succ_none (board : Board) (fuel : Nat) (found queue : Finset Pos)
    (h : firstPos queue = none) :
    groupLoop board (fuel + 1) found queue = found := by
  rw [groupLoop, h]

theorem groupLoop_succ_some (board : Board) (fuel : Nat) (found queue : Finset Pos)
    {current : Pos} (h : firstPos queue = some current) :
    groupLoop board (fuel + 1) found queue =
      groupLoop board fuel (insert current found)
        ((queue.erase current) ∪
          ((matchingAdjacentPositions board current none) \ (insert current found))) := by
  rw [groupLoop, h]

/-- Main loop invariant: starting from a disjoint found-set and queue inside a
finite universe `S`, with every found element's matching neighbors already
found or queued, and enough fuel to exhaust `S`, the loop result contains the
starting sets, contains only positions reachable from the queue (or already
found), and is closed under matching adjacency. -/
theorem groupLoop_spec (board : Board) (S : Finset Pos)
    (hU : clampUniverse board.size ⊆ S) :
    ∀ (fuel : Nat) (found queue : Finset Pos),
      Disjoint found queue →
      found ∪ queue ⊆ S →
      (∀ x ∈ found, matchingAdjacentPositions board x none ⊆ found ∪ queue) →
      (S \ found).card ≤ fuel →
      found ∪ queue ⊆ groupLoop board fuel found queue ∧
      (∀ q ∈ groupLoop board fuel found queue,
        q ∈ found ∨ ∃ s ∈ queue, Reach board s q) ∧
      (∀ x ∈ groupLoop board fuel found queue,
        matchingAdjacentPositions board x none ⊆ groupLoop board fuel found queue) := by
  intro fuel
  induction fuel with
  | zero =>
    intro found queue hdisj hsub hcl hcard
    have hqe : queue = ∅ := by
      rw [← Finset.not_nonempty_iff_eq_empty]
      rintro ⟨x, hx⟩
      have hxS : x ∈ S := hsub (Finset.mem_union_right _ hx)
      have hxf : x ∈ found := by
        by_contra hxf
        have hmem : x ∈ S \ found := Finset.mem_sdiff.mpr ⟨hxS, hxf⟩
        have : (S \ found) = ∅ := Finset.card_eq_zero.mp (Nat.le_zero.mp hcard)
        rw [this] at hmem
        exact Finset.not_mem_empty x hmem
      exact Finset.disjoint_left.mp hdisj hxf hx
    subst hqe
    rw [groupLoop_zero]
    exact ⟨by simp, fun q hq => Or.inl hq, fun x hx => by simpa using hcl x hx⟩
  | succ n ih =>
    intro found queue hdisj hsub hcl hcard
    cases hfq : firstPos queue with
    | none =>
      have hqe : queue = ∅ := firstPos_eq_none hfq
      subst hqe
      rw [groupLoop_succ_none _ _ _ _ hfq]
      exact ⟨by simp, fun q hq => Or.inl hq, fun x hx => by simpa using hcl x hx⟩
    | some current =>
      have hcur : current ∈ queue := firstPos_mem hfq
      have hcurS : current ∈ S := hsub (Finset.mem_union_right _ hcur)
      have hcurf : current ∉ found := fun h => Finset.disjoint_left.mp hdisj h hcur
      rw [groupLoop_succ_some _ _ _ _ hfq]
      have hdisj2 : Disjoint (insert current found)
          ((queue.erase current) ∪
            ((matchingAdjacentPositions board current none) \ (insert current found))) := by
        rw [Finset.disjoint_left]
        intro x hx hxq
        rcases Finset.mem_union.mp hxq with hxe | hxs
        · obtain ⟨hne, hxqueue⟩ := Finset.mem_erase.mp hxe
          rcases Finset.mem_insert.mp hx with h | h
          · exact hne h
          · exact Finset.disjoint_left.mp hdisj h hxqueue
        · exact (Finset.mem_sdiff.mp hxs).2 hx
      have hsub2 : (insert current found) ∪
          ((queue.erase current) ∪
            ((matchingAdjacentPositions board current none) \ (insert current found))) ⊆ S := by
        intro x hx
        rcases Finset.mem_union.mp hx with hx | hx
        · rcases Finset.mem_insert.mp hx with h | h
          · exact h ▸ hcurS
          · exact hsub (Finset.mem_union_left _ h)
        · rcases Finset.mem_union.mp hx with hx | hx
          · exact hsub (Finset.mem_union_right _ (Finset.mem_of_mem_erase hx))
          · exact hU (adjacent_subset_clampUniverse board current
              (matching_subset_adjacent board current none ((Finset.mem_sdiff.mp hx).1)))
      have hcl2 : ∀ x ∈ insert current found,
          matchingAdjacentPositions board x none ⊆
            (insert current found) ∪
              ((queue.erase current) ∪
                ((matchingAdjacentPositions board current none) \ (insert current found))) := by
        intro x hx y hy
        rcases Finset.mem_insert.mp hx with h | h
        · subst h
          by_cases hyf : y ∈ insert x found
          · exact Finset.mem_union_left _ hyf
          · exact Finset.mem_union_right _
              (Finset.mem_union_right _ (Finset.mem_sdiff.mpr ⟨hy, hyf⟩))
        · rcases Finset.mem_union.mp (hcl x h hy) with hyf | hyq
          · exact Finset.mem_union_left _ (Finset.mem_insert_of_mem hyf)
          · by_cases hyc : y = current
            · exact Finset.mem_union_left _ (hyc ▸ Finset.mem_insert_self _ _)
            · exact Finset.mem_union_right _
                (Finset.mem_union_left _ (Finset.mem_erase.mpr ⟨hyc, hyq⟩))
      have hcard2 : (S \ insert current found).card ≤ n := by
        rw [Finset.sdiff_insert]
        have hmem : current ∈ S \ found := Finset.mem_sdiff.mpr ⟨hcurS, hcurf⟩
        rw [Finset.card_erase_of_mem hmem]
        omega
      obtain ⟨h1, h2, h3⟩ := ih _ _ hdisj2 hsub2 hcl2 hcard2
      refine ⟨?_, ?_, h3⟩
      · intro x hx
        rcases Finset.mem_union.mp hx with hxf | hxq
        · exact h1 (Finset.mem_union_left _ (Finset.mem_insert_of_mem hxf))
        · by_cases hxc : x = current
          · exact h1 (Finset.mem_union_left _ (hxc ▸ Finset.mem_insert_self _ _))
          · exact h1 (Finset.mem_union_right _
              (Finset.mem_union_left _ (Finset.mem_erase.mpr ⟨hxc, hxq⟩)))
      · intro q hq
        rcases h2 q hq with hqf | ⟨s, hs, hreach⟩
        · rcases Finset.mem_insert.mp hqf with h | h
          · exact Or.inr ⟨current, hcur, h ▸ Relation.ReflTransGen.refl⟩
          · exact Or.inl h
        · rcases Finset.mem_union.mp hs with hse | hss
          · exact Or.inr ⟨s, Finset.mem_of_mem_erase hse, hreach⟩
          · have hstep : SameStep board current s := (Finset.mem_sdiff.mp hss).1
            exact Or.inr ⟨current, hcur, Relation.ReflTransGen.head hstep hreach⟩

/-! ### The group as a connected component -/

theorem mem_group_iff {board : Board} {position q : Pos} :
    q ∈ group board position ↔ Reach board position q := by
  have hspec := groupLoop_spec board (insert position (clampUniverse board.size))
    (Finset.subset_insert _ _) (insert position (clampUniverse board.size)).card
    ∅ {position} (by simp) (by simp)
    (fun x hx => absurd hx (Finset.not_mem_empty x)) (by rw [Finset.sdiff_empty])
  obtain ⟨h1, h2, h3⟩ := hspec
  constructor
  · intro hq
    rcases h2 q hq with h | ⟨s, hs, hr⟩
    · exact absurd h (Finset.not_mem_empty q)
    · rwa [Finset.mem_singleton.mp hs] at hr
  · intro hr
    induction hr with
    | refl => exact h1 (by simp)
    | tail hab hbc ih => exact h3 _ ih hbc

theorem group_self (board : Board) (position : Pos) :
    position ∈ group board position :=
  mem_group_iff.mpr Relation.ReflTransGen.refl

theorem reach_get {board : Board} {p q : Pos} (h : Reach board p q) :
    board.get q = board.get p := by
  induction h with
  | refl => rfl
  | tail hab hbc ih => exact (mem_matching_undef.mp hbc).2.trans ih

theorem group_value {board : Board} {p q : Pos} (h : q ∈ group board p) :
    board.get q = board.get p :=
  reach_get (mem_group_iff.mp h)

theorem reach_iff_connected {board : Board} {p q : Pos} :
    Reach board p q ↔ ConnectedFrom board p q := by
  constructor
  · intro h
    induction h with
    | refl => exact Relation.ReflTransGen.refl
    | tail hab hbc ih =>
      exact Relation.ReflTransGen.tail ih
        ⟨(mem_matching_undef.mp hbc).1,
          (mem_matching_undef.mp hbc).2.trans (reach_get hab)⟩
  · intro h
    induction h with
    | refl => exact Relation.ReflTransGen.refl
    | tail hab hbc ih =>
      exact Relation.ReflTransGen.tail ih
        (mem_matching_undef.mpr ⟨hbc.1, hbc.2.trans (reach_get ih).symm⟩)

theorem connected_congr {b1 b2 : Board} {p : Pos}
    (hsize : b1.size = b2.size)
    (hval : ∀ q, b1.get q = b1.get p ↔ b2.get q = b2.get p) (q : Pos) :
    ConnectedFrom b1 p q ↔ ConnectedFrom b2 p q := by
  constructor
  · exact Relation.ReflTransGen.mono
      (fun a b hab => ⟨(adjacentPositions_size_eq hsize a) ▸ hab.1, (hval b).mp hab.2⟩)
  · exact Relation.ReflTransGen.mono
      (fun a b hab => ⟨(adjacentPositions_size_eq hsize a) ▸ hab.1, (hval b).mpr hab.2⟩)

theorem group_congr {b1 b2 : Board} {p : Pos}
    (hsize : b1.size = b2.size)
    (hval : ∀ q, b1.get q = b1.get p ↔ b2.get q = b2.get p) :
    group b1 p = group b2 p :=
  Finset.ext fun q => by
    rw [mem_group_iff, mem_group_iff, reach_iff_connected, reach_iff_connected,
      connected_congr hsize hval q]

/-! ### Liberties -/

theorem liberties_mono {b1 b2 : Board} (p : Pos)
    (hg : group b1 p = group b2 p) (hsize : b1.size = b2.size)
    (hempty : ∀ q, b1.get q = none → b2.get q = none) :
    liberties b1 p ≤ liberties b2 p := by
  rw [liberties, liberties, ← hg]
  apply Finset.card_le_card
  intro y hy
  obtain ⟨x, hx, hyx⟩ := Finset.mem_biUnion.mp hy
  obtain ⟨hadj, hget⟩ := mem_matching_some.mp hyx
  exact Finset.mem_biUnion.mpr ⟨x, hx,
    mem_matching_some.mpr ⟨(adjacentPositions_size_eq hsize x) ▸ hadj, hempty _ hget⟩⟩

theorem liberties_pos_of_empty_neighbor {board : Board} {p q : Pos}
    (hadj : q ∈ adjacentPositions board p) (hget : board.get q = none) :
    0 < liberties board p := by
  rw [liberties]
  apply Finset.card_pos.mpr
  exact ⟨q, Finset.mem_biUnion.mpr ⟨p, group_self board p,
    mem_matching_some.mpr ⟨hadj, hget⟩⟩⟩

/-! ### Color utilities and legality -/

theorem oppositeColor_valid {color : String} (hc : color = BLACK ∨ color = WHITE) :
    oppositeColor color = Except.ok (if color = BLACK then WHITE else BLACK) := by
  rcases hc with h | h <;> subst h <;> rfl

theorem oppositeColor_invalid {color : String} (h1 : color ≠ BLACK)
    (h2 : color ≠ WHITE) :
    oppositeColor color = Except.error "Must pass in a color" := by
  rw [oppositeColor, if_pos ⟨h1, h2⟩]

theorem isLegalMove_ok_iff {board : Board} {position : Pos} {color opp : String}
    (hopp : oppositeColor color = Except.ok opp) :
    isLegalMove board position color = Except.ok true ↔
      0 < liberties (board.set position color) position ∨
      ∃ q ∈ adjacentPositions board position,
        board.get q = some opp ∧ liberties board q = 1 := by
  rw [isLegalMove, hopp]
  simp only [Except.ok.injEq, Bool.or_eq_true, decide_eq_true_eq]
  constructor
  · rintro (h | h)
    · exact Or.inl h
    · obtain ⟨q, hq, hlib⟩ := h
      obtain ⟨hadj, hget⟩ := mem_matching_some.mp hq
      exact Or.inr ⟨q, hadj, hget, hlib⟩
  · rintro (h | ⟨q, hadj, hget, hlib⟩)
    · exact Or.inl h
    · exact Or.inr ⟨q, mem_matching_some.mpr ⟨hadj, hget⟩, hlib⟩

theorem isLegalMove_invalid {board : Board} {position : Pos} {color : String}
    (h1 : color ≠ BLACK) (h2 : color ≠ WHITE) :
    isLegalMove board position color = Except.error "Must pass in a color" := by
  rw [isLegalMove, oppositeColor_invalid h1 h2]

/-! ### addMove -/

theorem addMove_eq_ok {board : Board} {position : Pos} {color opp : String}
    (hleg : isLegalMove board position color = Except.ok true)
    (hocc : board.has position = false)
    (hopp : oppositeColor color = Except.ok opp) :
    addMove board position color =
      Except.ok ((removeMoves board (killedBy board position opp)).set position color) := by
  rw [addMove, hleg]
  simp [hocc, hopp]

theorem addMove_ok_inv {board : Board} {position : Pos} {color : String}
    {board2 : Board} (h : addMove board position color = Except.ok board2) :
    isLegalMove board position color = Except.ok true ∧
      board.has position = false ∧
      ∃ opp, oppositeColor color = Except.ok opp ∧
        board2 = (removeMoves board (killedBy board position opp)).set position color := by
  rw [addMove] at h
  cases hleg : isLegalMove board position color with
  | error e => rw [hleg] at h; exact absurd h (by simp)
  | ok legal =>
    rw [hleg] at h
    cases legal with
    | false => simp at h
    | true =>
      simp only [Bool.not_true, Bool.false_eq_true, if_false] at h
      cases hocc : board.has position with
      | true => rw [hocc] at h; simp at h
      | false =>
        rw [hocc] at h
        simp only [Bool.false_eq_true, if_false] at h
        cases hoc : oppositeColor color with
        | error e => rw [hoc] at h; exact absurd h (by simp)
        | ok opp =>
          rw [hoc] at h
          simp only [Except.ok.injEq] at h
          exact ⟨rfl, rfl, opp, rfl, h.symm⟩

/-! ### The killed set -/

theorem mem_killedBy {board : Board} {position q : Pos} {opp : String} :
    q ∈ killedBy board position opp ↔
      ∃ a ∈ adjacentPositions board position,
        board.get a = some opp ∧ liberties board a = 1 ∧ q ∈ group board a := by
  rw [killedBy]
  simp only [Finset.mem_biUnion]
  constructor
  · rintro ⟨a, ha, hq⟩
    obtain ⟨hadj, hget⟩ := mem_matching_some.mp ha
    by_cases hlib : liberties board a = 1
    · rw [if_pos hlib] at hq
      exact ⟨a, hadj, hget, hlib, hq⟩
    · rw [if_neg hlib] at hq
      exact absurd hq (Finset.not_mem_empty q)
  · rintro ⟨a, hadj, hget, hlib, hq⟩
    exact ⟨a, mem_matching_some.mpr ⟨hadj, hget⟩, by rw [if_pos hlib]; exact hq⟩

theorem mem_killedSpec {board : Board} {position q : Pos} {opp : String} :
    q ∈ killedSpec board position opp ↔
      ∃ a ∈ adjacentPositions board position,
        board.get a = some opp ∧ liberties board a = 1 ∧ q ∈ group board a := by
  rw [killedSpec]
  simp only [Finset.mem_biUnion]
  constructor
  · rintro ⟨a, hadj, hq⟩
    by_cases hc : board.get a = some opp ∧ liberties board a = 1
    · rw [if_pos hc] at hq
      exact ⟨a, hadj, hc.1, hc.2, hq⟩
    · rw [if_neg hc] at hq
      exact absurd hq (Finset.not_mem_empty q)
  · rintro ⟨a, hadj, hget, hlib, hq⟩
    exact ⟨a, hadj, by rw [if_pos ⟨hget, hlib⟩]; exact hq⟩

theorem killedBy_eq_killedSpec (board : Board) (position : Pos) (opp : String) :
    killedBy board position opp = killedSpec board position opp :=
  Finset.ext fun q => by rw [mem_killedBy, mem_killedSpec]

theorem killed_value {board : Board} {position q : Pos} {opp : String}
    (hq : q ∈ killedBy board position opp) : board.get q = some opp := by
  obtain ⟨a, _, hget, _, hqg⟩ := mem_killedBy.mp hq
  exact (group_value hqg).trans hget

/-! ### Concrete boards used as witness instances -/

/-- A 2 by 2 empty board used as a concrete instance. -/
def boardTwoEmpty : Board := ⟨2, fun _ => none⟩

/-- The empty 3 by 3 board underlying the capture scenario. -/
def boardThreeEmpty : Board := ⟨3, fun _ => none⟩

/-- The capture-scenario board: a White stone at (1,1) and Black stones at
(0,1), (1,0) and (1,2). -/
def captureBoard : Board :=
  (((boardThreeEmpty.set (1, 1) WHITE).set (0, 1) BLACK).set (1, 0) BLACK).set
    (1, 2) BLACK

/-! ### Claims -/

/-- Claim C1: for every board, position and color in Black/White,
`isLegalMove` returns true exactly when the hypothetical placement leaves the
placed stone's group with more than zero liberties, or some geometric neighbor
of the position on the original board holds the opposite color and its group
has exactly one liberty there. -/
theorem isLegalMove_characterizes (board : Board) (position : Pos)
    (color : String) (hc : color = BLACK ∨ color = WHITE) :
    isLegalMove board position color = Except.ok true ↔
      0 < liberties (board.set position color) position ∨
      ∃ q ∈ adjacentPositions board position,
        board.get q = some (if color = BLACK then WHITE else BLACK) ∧
        liberties board q = 1 :=
  isLegalMove_ok_iff (oppositeColor_valid hc)

theorem isLegalMove_characterizes_witness :
    (BLACK = BLACK ∨ BLACK = WHITE) ∧
    (isLegalMove boardTwoEmpty (0, 0) BLACK = Except.ok true ↔
      0 < liberties (boardTwoEmpty.set (0, 0) BLACK) (0, 0) ∨
      ∃ q ∈ adjacentPositions boardTwoEmpty (0, 0),
        boardTwoEmpty.get q = some (if BLACK = BLACK then WHITE else BLACK) ∧
        liberties boardTwoEmpty q = 1) :=
  ⟨Or.inl rfl, isLegalMove_characterizes boardTwoEmpty (0, 0) BLACK (Or.inl rfl)⟩

/-- Claim C2: for every board, unoccupied position and legal color in
Black/White, `addMove` returns exactly the board obtained by deleting the
killed set (the union of the adjacent opposite-colored groups whose pre-move
liberty count is exactly 1) and then placing the stone. -/
theorem addMove_eq_spec (board : Board) (position : Pos) (color : String)
    (hc : color = BLACK ∨ color = WHITE)
    (hunocc : board.has position = false)
    (hleg : isLegalMove board position color = Except.ok true) :
    addMove board position color = Except.ok
      ((deleteAllSpec board
        (killedSpec board position (if color = BLACK then WHITE else BLACK))).set
        position color) := by
  rw [addMove_eq_ok hleg hunocc (oppositeColor_valid hc),
    removeMoves_eq_deleteAllSpec, killedBy_eq_killedSpec]

theorem addMove_eq_spec_witness :
    (BLACK = BLACK ∨ BLACK = WHITE) ∧
    Board.has boardTwoEmpty (0, 0) = false ∧
    isLegalMove boardTwoEmpty (0, 0) BLACK = Except.ok true ∧
    addMove boardTwoEmpty (0, 0) BLACK = Except.ok
      ((deleteAllSpec boardTwoEmpty
        (killedSpec boardTwoEmpty (0, 0) (if BLACK = BLACK then WHITE else BLACK))).set
        (0, 0) BLACK) :=
  ⟨Or.inl rfl, by decide, by decide,
    addMove_eq_spec boardTwoEmpty (0, 0) BLACK (Or.inl rfl) (by decide) (by decide)⟩

/-- Claim C4: on the 3 by 3 capture-scenario board, the White stone at (1,1)
has exactly one liberty, and the Black move at (2,1) succeeds, captures the
White stone, and places a Black stone at (2,1). -/
theorem capture_scenario_3x3 :
    emptyBoard 3 = Except.ok boardThreeEmpty ∧
    liberties captureBoard (1, 1) = 1 ∧
    (addMove captureBoard (2, 1) BLACK).map
      (fun r => (r.has (1, 1), r.get (2, 1))) = Except.ok (false, some BLACK) :=
  ⟨rfl, by decide, by decide⟩

/-- Claim C6: `addMove` fails with the IllegalMove error (`'Not a valid
position'`) whenever the move is illegal — the occupancy of the position is
not even consulted — and, when the move is legal, fails with the
OccupiedPosition error (`'There is already a stone there'`) whenever the
position is occupied; it returns a board exactly when the move is legal and
the position unoccupied. -/
theorem addMove_error_order (board : Board) (position : Pos) (color : String)
    (hc : color = BLACK ∨ color = WHITE) :
    (isLegalMove board position color = Except.ok false →
      addMove board position color = Except.error "Not a valid position") ∧
    (isLegalMove board position color = Except.ok true →
      board.has position = true →
      addMove board position color = Except.error "There is already a stone there") ∧
    ((∃ board2, addMove board position color = Except.ok board2) ↔
      isLegalMove board position color = Except.ok true ∧
        board.has position = false) := by
  refine ⟨?_, ?_, ?_⟩
  · intro hleg
    rw [addMove, hleg]
    simp
  · intro hleg hocc
    rw [addMove, hleg]
    simp [hocc]
  · constructor
    · rintro ⟨board2, h⟩
      obtain ⟨h1, h2, -⟩ := addMove_ok_inv h
      exact ⟨h1, h2⟩
    · rintro ⟨hleg, hocc⟩
      exact ⟨_, addMove_eq_ok hleg hocc (oppositeColor_valid hc)⟩

theorem addMove_error_order_witness :
    (BLACK = BLACK ∨ BLACK = WHITE) ∧
    ((isLegalMove boardTwoEmpty (0, 0) BLACK = Except.ok false →
      addMove boardTwoEmpty (0, 0) BLACK = Except.error "Not a valid position") ∧
    (isLegalMove boardTwoEmpty (0, 0) BLACK = Except.ok true →
      Board.has boardTwoEmpty (0, 0) = true →
      addMove boardTwoEmpty (0, 0) BLACK =
        Except.error "There is already a stone there") ∧
    ((∃ board2, addMove boardTwoEmpty (0, 0) BLACK = Except.ok board2) ↔
      isLegalMove boardTwoEmpty (0, 0) BLACK = Except.ok true ∧
        Board.has boardTwoEmpty (0, 0) = false)) :=
  ⟨Or.inl rfl, addMove_error_order boardTwoEmpty (0, 0) BLACK (Or.inl rfl)⟩

/-- Claim C8: `oppositeColor` swaps Black and White and fails with the
InvalidColor error (`'Must pass in a color'`) on every other input. -/
theorem oppositeColor_mapping :
    oppositeColor BLACK = Except.ok WHITE ∧
    oppositeColor WHITE = Except.ok BLACK ∧
    ∀ color : String, color ≠ BLACK → color ≠ WHITE →
      oppositeColor color = Except.error "Must pass in a color" :=
  ⟨rfl, rfl, fun _ h1 h2 => oppositeColor_invalid h1 h2⟩

theorem oppositeColor_mapping_witness :
    "red" ≠ BLACK ∧ "red" ≠ WHITE ∧
    oppositeColor "red" = Except.error "Must pass in a color" :=
  ⟨by decide, by decide, oppositeColor_mapping.2.2 "red" (by decide) (by decide)⟩

/-- Claim C9: whenever `addMove` succeeds on an unoccupied position with a
Black/White color, the placed stone's group on the resulting board has at
least one liberty. -/
theorem addMove_result_has_liberty (board : Board) (position : Pos)
    (color : String) (board2 : Board)
    (hc : color = BLACK ∨ color = WHITE)
    (_hunocc : board.has position = false)
    (h : addMove board position color = Except.ok board2) :
    0 < liberties board2 position := by
  obtain ⟨hleg, -, opp, hopp, hb2⟩ := addMove_ok_inv h
  rw [oppositeColor_valid hc] at hopp
  replace hopp : opp = (if color = BLACK then WHITE else BLACK) :=
    (Except.ok.inj hopp).symm
  subst hopp
  have hoppne : (if color = BLACK then WHITE else BLACK) ≠ color := by
    rcases hc with h | h <;> subst h <;> decide
  have hget2 : ∀ q, board2.get q =
      if q = position then some color
      else if q ∈ killedBy board position (if color = BLACK then WHITE else BLACK)
        then none else board.get q := by
    intro q
    rw [hb2, get_set]
    by_cases hq : q = position
    · simp [hq]
    · simp only [hq, if_false]
      exact removeMoves_get board _ q
  have hsize2 : board2.size = board.size := by
    rw [hb2, size_set, removeMoves_size]
  rcases (isLegalMove_ok_iff (oppositeColor_valid hc)).mp hleg with
    hlib | ⟨nq, hadj, hget, hlib1⟩
  · -- the hypothetical placement already has a liberty; captures only add
    -- empty positions, so the result has at least as many liberties
    have hgetpos1 : (board.set position color).get position = some color := by
      rw [get_set, if_pos rfl]
    have hgetpos2 : board2.get position = some color := by
      rw [hget2, if_pos rfl]
    have hval : ∀ q, (board.set position color).get q =
        (board.set position color).get position ↔
        board2.get q = board2.get position := by
      intro q
      rw [hgetpos1, hgetpos2, get_set, hget2]
      by_cases hq : q = position
      · simp [hq]
      · simp only [hq, if_false]
        by_cases hk : q ∈ killedBy board position
            (if color = BLACK then WHITE else BLACK)
        · rw [if_pos hk]
          constructor
          · intro hcc
            exact absurd (Option.some.inj ((killed_value hk).symm.trans hcc))
              hoppne
          · intro hcc
            exact absurd hcc (by simp)
        · rw [if_neg hk]
    have hsz : (board.set position color).size = board2.size := by
      rw [hsize2, size_set]
    have hgroup : group (board.set position color) position =
        group board2 position := group_congr hsz hval
    have hempty : ∀ q, (board.set position color).get q = none →
        board2.get q = none := by
      intro q hq
      rw [get_set] at hq
      by_cases hqp : q = position
      · rw [if_pos hqp] at hq; exact absurd hq (by simp)
      · rw [if_neg hqp] at hq
        rw [hget2, if_neg hqp]
        by_cases hk : q ∈ killedBy board position
            (if color = BLACK then WHITE else BLACK)
        · rw [if_pos hk]
        · rw [if_neg hk]; exact hq
    have := liberties_mono position hgroup hsz hempty
    omega
  · -- the move kills the neighbor's group, which frees that neighbor as a
    -- liberty of the placed stone
    have hnqk : nq ∈ killedBy board position
        (if color = BLACK then WHITE else BLACK) :=
      mem_killedBy.mpr ⟨nq, hadj, hget, hlib1, group_self board nq⟩
    have hnqp : nq ≠ position := fun hh =>
      self_not_mem_adjacent board position (hh ▸ hadj)
    have hnone : board2.get nq = none := by
      rw [hget2, if_neg hnqp, if_pos hnqk]
    have hadj2 : nq ∈ adjacentPositions board2 position := by
      rw [adjacentPositions_size_eq hsize2 position]
      exact hadj
    exact liberties_pos_of_empty_neighbor hadj2 hnone

theorem addMove_result_has_liberty_witness :
    (BLACK = BLACK ∨ BLACK = WHITE) ∧
    Board.has boardTwoEmpty (0, 0) = false ∧
    addMove boardTwoEmpty (0, 0) BLACK = Except.ok
      ((removeMoves boardTwoEmpty (killedBy boardTwoEmpty (0, 0) WHITE)).set
        (0, 0) BLACK) ∧
    0 < liberties
      ((removeMoves boardTwoEmpty (killedBy boardTwoEmpty (0, 0) WHITE)).set
        (0, 0) BLACK) (0, 0) :=
  ⟨Or.inl rfl, by decide, rfl,
    addMove_result_has_liberty boardTwoEmpty (0, 0) BLACK _
      (Or.inl rfl) (by decide) rfl⟩

/-- Claim C10: `isLegalMove` called with a color that is neither Black nor
White always fails with the InvalidColor error propagated from
`oppositeColor`, because the capture operand is computed unconditionally. -/
theorem isLegalMove_invalid_color (board : Board) (position : Pos)
    (color : String) (h1 : color ≠ BLACK) (h2 : color ≠ WHITE) :
    isLegalMove board position color = Except.error "Must pass in a color" :=
  isLegalMove_invalid h1 h2

theorem isLegalMove_invalid_color_witness :
    "red" ≠ BLACK ∧ "red" ≠ WHITE ∧
    isLegalMove boardTwoEmpty (0, 0) "red" =
      Except.error "Must pass in a color" :=
  ⟨by decide, by decide,
    isLegalMove_invalid_color boardTwoEmpty (0, 0) "red" (by decide) (by decide)⟩

/-- Claim C3: for every board and in-bounds position, `group` returns exactly
the positions joined to the start by chains of orthogonally adjacent positions
carrying the same board value as the start — the maximal connected
same-valued component — whether the start holds a stone or is empty. -/
theorem group_is_connected_component (board : Board) (position : Pos)
    (_h : inBounds board.size position) :
    ∀ q, q ∈ group board position ↔ ConnectedFrom board position q :=
  fun _ => mem_group_iff.trans reach_iff_connected

theorem group_is_connected_component_witness :
    inBounds boardTwoEmpty.size (0, 0) ∧
    ∀ q, q ∈ group boardTwoEmpty (0, 0) ↔ ConnectedFrom boardTwoEmpty (0, 0) q :=
  ⟨by decide, group_is_connected_component boardTwoEmpty (0, 0) (by decide)⟩

theorem adjacentPositions_pair (board : Board) (x y : Int) :
    adjacentPositions board (x, y) =
      ({(check board.size x, check board.size (y + 1)),
        (check board.size x, check board.size (y - 1)),
        (check board.size (x + 1), check board.size y),
        (check board.size (x - 1), check board.size y)} : Finset Pos) \ {(x, y)} :=
  rfl

theorem inBounds_pair (size a b : Int) :
    inBounds size (a, b) ↔ 0 ≤ a ∧ a < size ∧ 0 ≤ b ∧ b < size :=
  Iff.rfl

set_option maxHeartbeats 2000000 in
/-- Claim C5: on a board of size at least 2, `adjacentPositions` returns
exactly 2 positions at a corner and exactly 3 at a non-corner edge position;
with size at least 3 it returns exactly 4 at an interior position; and in
every case the result holds only in-bounds positions and never the position
itself. -/
theorem adjacentPositions_count (board : Board) (p : Pos)
    (hsize : 2 ≤ board.size) (hp : inBounds board.size p) :
    (isCorner board.size p → (adjacentPositions board p).card = 2) ∧
    (isBoundary board.size p → ¬ isCorner board.size p →
      (adjacentPositions board p).card = 3) ∧
    (3 ≤ board.size → ¬ isBoundary board.size p →
      (adjacentPositions board p).card = 4) ∧
    (∀ q ∈ adjacentPositions board p, inBounds board.size q) ∧
    p ∉ adjacentPositions board p := by
  obtain ⟨x, y⟩ := p
  rw [inBounds_pair] at hp
  obtain ⟨hx0, hxn, hy0, hyn⟩ := hp
  refine ⟨?_, ?_, ?_, ?_, self_not_mem_adjacent board (x, y)⟩
  · -- corners
    intro hcor
    simp only [isCorner] at hcor
    obtain ⟨hx | hx, hy | hy⟩ := hcor
    · subst hx; subst hy
      have c1 : check board.size 0 = 0 := check_eq_self (by omega) (by omega)
      have c2 : check board.size (0 + 1) = 0 + 1 :=
        check_eq_self (by omega) (by omega)
      have c3 : check board.size (0 - 1) = 0 :=
        check_eq_zero (by omega) (by omega)
      have hset : adjacentPositions board (0, 0) =
          ({(0, 1), (1, 0)} : Finset Pos) := by
        rw [adjacentPositions_pair]
        ext ⟨qx, qy⟩
        simp only [Finset.mem_sdiff, Finset.mem_insert, Finset.mem_singleton,
          Prod.mk.injEq, c1, c2, c3]
        omega
      rw [hset, Finset.card_insert_of_not_mem (by
        simp only [Finset.mem_singleton, Prod.mk.injEq]; omega),
        Finset.card_singleton]
    · subst hx; subst hy
      have c1 : check board.size 0 = 0 := check_eq_self (by omega) (by omega)
      have c2 : check board.size (0 + 1) = 0 + 1 :=
        check_eq_self (by omega) (by omega)
      have c3 : check board.size (0 - 1) = 0 :=
        check_eq_zero (by omega) (by omega)
      have c4 : check board.size (board.size - 1) = board.size - 1 :=
        check_eq_self (by omega) (by omega)
      have c5 : check board.size (board.size - 1 + 1) = board.size - 1 :=
        check_eq_top (by omega) (by omega)
      have c6 : check board.size (board.size - 1 - 1) = board.size - 1 - 1 :=
        check_eq_self (by omega) (by omega)
      have hset : adjacentPositions board (0, board.size - 1) =
          ({(0, board.size - 2), (1, board.size - 1)} : Finset Pos) := by
        rw [adjacentPositions_pair]
        ext ⟨qx, qy⟩
        simp only [Finset.mem_sdiff, Finset.mem_insert, Finset.mem_singleton,
          Prod.mk.injEq, c1, c2, c3, c4, c5, c6]
        omega
      rw [hset, Finset.card_insert_of_not_mem (by
        simp only [Finset.mem_singleton, Prod.mk.injEq]; omega),
        Finset.card_singleton]
    · subst hx; subst hy
      have c1 : check board.size 0 = 0 := check_eq_self (by omega) (by omega)
      have c2 : check board.size (0 + 1) = 0 + 1 :=
        check_eq_self (by omega) (by omega)
      have c3 : check board.size (0 - 1) = 0 :=
        check_eq_zero (by omega) (by omega)
      have c4 : check board.size (board.size - 1) = board.size - 1 :=
        check_eq_self (by omega) (by omega)
      have c5 : check board.size (board.size - 1 + 1) = board.size - 1 :=
        check_eq_top (by omega) (by omega)
      have c6 : check board.size (board.size - 1 - 1) = board.size - 1 - 1 :=
        check_eq_self (by omega) (by omega)
      have hset : adjacentPositions board (board.size - 1, 0) =
          ({(board.size - 1, 1), (board.size - 2, 0)} : Finset Pos) := by
        rw [adjacentPositions_pair]
        ext ⟨qx, qy⟩
        simp only [Finset.mem_sdiff, Finset.mem_insert, Finset.mem_singleton,
          Prod.mk.injEq, c1, c2, c3, c4, c5, c6]
        omega
      rw [hset, Finset.card_insert_of_not_mem (by
        simp only [Finset.mem_singleton, Prod.mk.injEq]; omega),
        Finset.card_singleton]
    · subst hx; subst hy
      have c4 : check board.size (board.size - 1) = board.size - 1 :=
        check_eq_self (by omega) (by omega)
      have c5 : check board.size (board.size - 1 + 1) = board.size - 1 :=
        check_eq_top (by omega) (by omega)
      have c6 : check board.size (board.size - 1 - 1) = board.size - 1 - 1 :=
        check_eq_self (by omega) (by omega)
      have hset : adjacentPositions board (board.size - 1, board.size - 1) =
          ({(board.size - 1, board.size - 2),
            (board.size - 2, board.size - 1)} : Finset Pos) := by
        rw [adjacentPositions_pair]
        ext ⟨qx, qy⟩
        simp only [Finset.mem_sdiff, Finset.mem_insert, Finset.mem_singleton,
          Prod.mk.injEq, c4, c5, c6]
        omega
      rw [hset, Finset.card_insert_of_not_mem (by
        simp only [Finset.mem_singleton, Prod.mk.injEq]; omega),
        Finset.card_singleton]
  · -- non-corner edges
    intro hbd hnc
    simp only [isBoundary] at hbd
    simp only [isCorner] at hnc
    rcases hbd with hx | hx | hy | hy
    · subst hx
      have hy' : ¬(y = 0 ∨ y = board.size - 1) := fun hcon =>
        hnc ⟨Or.inl rfl, hcon⟩
      have c1 : check board.size 0 = 0 := check_eq_self (by omega) (by omega)
      have c2 : check board.size (0 + 1) = 0 + 1 :=
        check_eq_self (by omega) (by omega)
      have c3 : check board.size (0 - 1) = 0 :=
        check_eq_zero (by omega) (by omega)
      have c4 : check board.size y = y := check_eq_self (by omega) (by omega)
      have c5 : check board.size (y + 1) = y + 1 :=
        check_eq_self (by omega) (by omega)
      have c6 : check board.size (y - 1) = y - 1 :=
        check_eq_self (by omega) (by omega)
      have hset : adjacentPositions board (0, y) =
          ({(0, y + 1), (0, y - 1), (1, y)} : Finset Pos) := by
        rw [adjacentPositions_pair]
        ext ⟨qx, qy⟩
        simp only [Finset.mem_sdiff, Finset.mem_insert, Finset.mem_singleton,
          Prod.mk.injEq, c1, c2, c3, c4, c5, c6]
        omega
      rw [hset, Finset.card_insert_of_not_mem (by
          simp only [Finset.mem_insert, Finset.mem_singleton, Prod.mk.injEq]
          omega),
        Finset.card_insert_of_not_mem (by
          simp only [Finset.mem_singleton, Prod.mk.injEq]; omega),
        Finset.card_singleton]
    · subst hx
      have hy' : ¬(y = 0 ∨ y = board.size - 1) := fun hcon =>
        hnc ⟨Or.inr rfl, hcon⟩
      have c4 : check board.size (board.size - 1) = board.size - 1 :=
        check_eq_self (by omega) (by omega)
      have c5 : check board.size (board.size - 1 + 1) = board.size - 1 :=
        check_eq_top (by omega) (by omega)
      have c6 : check board.size (board.size - 1 - 1) = board.size - 1 - 1 :=
        check_eq_self (by omega) (by omega)
      have c7 : check board.size y = y := check_eq_self (by omega) (by omega)
      have c8 : check board.size (y + 1) = y + 1 :=
        check_eq_self (by omega) (by omega)
      have c9 : check board.size (y - 1) = y - 1 :=
        check_eq_self (by omega) (by omega)
      have hset : adjacentPositions board (board.size - 1, y) =
          ({(board.size - 1, y + 1), (board.size - 1, y - 1),
            (board.size - 2, y)} : Finset Pos) := by
        rw [adjacentPositions_pair]
        ext ⟨qx, qy⟩
        simp only [Finset.mem_sdiff, Finset.mem_insert, Finset.mem_singleton,
          Prod.mk.injEq, c4, c5, c6, c7, c8, c9]
        omega
      rw [hset, Finset.card_insert_of_not_mem (by
          simp only [Finset.mem_insert, Finset.mem_singleton, Prod.mk.injEq]
          omega),
        Finset.card_insert_of_not_mem (by
          simp only [Finset.mem_singleton, Prod.mk.injEq]; omega),
        Finset.card_singleton]
    · subst hy
      have hx' : ¬(x = 0 ∨ x = board.size - 1) := fun hcon =>
        hnc ⟨hcon, Or.inl rfl⟩
      have c1 : check board.size 0 = 0 := check_eq_self (by omega) (by omega)
      have c2 : check board.size (0 + 1) = 0 + 1 :=
        check_eq_self (by omega) (by omega)
      have c3 : check board.size (0 - 1) = 0 :=
        check_eq_zero (by omega) (by omega)
      have c4 : check board.size x = x := check_eq_self (by omega) (by omega)
      have c5 : check board.size (x + 1) = x + 1 :=
        check_eq_self (by omega) (by omega)
      have c6 : check board.size (x - 1) = x - 1 :=
        check_eq_self (by omega) (by omega)
      have hset : adjacentPositions board (x, 0) =
          ({(x, 1), (x + 1, 0), (x - 1, 0)} : Finset Pos) := by
        rw [adjacentPositions_pair]
        ext ⟨qx, qy⟩
        simp only [Finset.mem_sdiff, Finset.mem_insert, Finset.mem_singleton,
          Prod.mk.injEq, c1, c2, c3, c4, c5, c6]
        omega
      rw [hset, Finset.card_insert_of_not_mem (by
          simp only [Finset.mem_insert, Finset.mem_singleton, Prod.mk.injEq]
          omega),
        Finset.card_insert_of_not_mem (by
          simp only [Finset.mem_singleton, Prod.mk.injEq]; omega),
        Finset.card_singleton]
    · subst hy
      have hx' : ¬(x = 0 ∨ x = board.size - 1) := fun hcon =>
        hnc ⟨hcon, Or.inr rfl⟩
      have c4 : check board.size (board.size - 1) = board.size - 1 :=
        check_eq_self (by omega) (by omega)
      have c5 : check board.size (board.size - 1 + 1) = board.size - 1 :=
        check_eq_top (by omega) (by omega)
      have c6 : check board.size (board.size - 1 - 1) = board.size - 1 - 1 :=
        check_eq_self (by omega) (by omega)
      have c7 : check board.size x = x := check_eq_self (by omega) (by omega)
      have c8 : check board.size (x + 1) = x + 1 :=
        check_eq_self (by omega) (by omega)
      have c9 : check board.size (x - 1) = x - 1 :=
        check_eq_self (by omega) (by omega)
      have hset : adjacentPositions board (x, board.size - 1) =
          ({(x, board.size - 2), (x + 1, board.size - 1),
            (x - 1, board.size - 1)} : Finset Pos) := by
        rw [adjacentPositions_pair]
        ext ⟨qx, qy⟩
        simp only [Finset.mem_sdiff, Finset.mem_insert, Finset.mem_singleton,
          Prod.mk.injEq, c4, c5, c6, c7, c8, c9]
        omega
      rw [hset, Finset.card_insert_of_not_mem (by
          simp only [Finset.mem_insert, Finset.mem_singleton, Prod.mk.injEq]
          omega),
        Finset.card_insert_of_not_mem (by
          simp only [Finset.mem_singleton, Prod.mk.injEq]; omega),
        Finset.card_singleton]
  · -- interior
    intro _ hbd
    simp only [isBoundary] at hbd
    have c1 : check board.size x = x := check_eq_self (by omega) (by omega)
    have c2 : check board.size (x + 1) = x + 1 :=
      check_eq_self (by omega) (by omega)
    have c3 : check board.size (x - 1) = x - 1 :=
      check_eq_self (by omega) (by omega)
    have c4 : check board.size y = y := check_eq_self (by omega) (by omega)
    have c5 : check board.size (y + 1) = y + 1 :=
      check_eq_self (by omega) (by omega)
    have c6 : check board.size (y - 1) = y - 1 :=
      check_eq_self (by omega) (by omega)
    have hset : adjacentPositions board (x, y) =
        ({(x, y + 1), (x, y - 1), (x + 1, y), (x - 1, y)} : Finset Pos) := by
      rw [adjacentPositions_pair]
      ext ⟨qx, qy⟩
      simp only [Finset.mem_sdiff, Finset.mem_insert, Finset.mem_singleton,
        Prod.mk.injEq, c1, c2, c3, c4, c5, c6]
      omega
    have hnm1 : ((x : Int), y + 1) ∉
        ({(x, y - 1), (x + 1, y), (x - 1, y)} : Finset Pos) := by
      simp only [Finset.mem_insert, Finset.mem_singleton, Prod.mk.injEq]
      omega
    have hnm2 : ((x : Int), y - 1) ∉ ({(x + 1, y), (x - 1, y)} : Finset Pos) := by
      simp only [Finset.mem_insert, Finset.mem_singleton, Prod.mk.injEq]
      omega
    have hnm3 : ((x : Int) + 1, y) ∉ ({(x - 1, y)} : Finset Pos) := by
      simp only [Finset.mem_singleton, Prod.mk.injEq]
      omega
    rw [hset, Finset.card_insert_of_not_mem hnm1,
      Finset.card_insert_of_not_mem hnm2,
      Finset.card_insert_of_not_mem hnm3, Finset.card_singleton]
  · -- members are in bounds
    intro q hq
    rw [adjacentPositions_pair] at hq
    have hq1 := (Finset.mem_sdiff.mp hq).1
    simp only [Finset.mem_insert, Finset.mem_singleton] at hq1
    have hn1 : (1:Int) ≤ board.size := by omega
    rcases hq1 with h | h | h | h <;> subst h <;>
      exact (inBounds_pair _ _ _).mpr
        ⟨(check_bounds hn1 _).1, (check_bounds hn1 _).2,
          (check_bounds hn1 _).1, (check_bounds hn1 _).2⟩

theorem adjacentPositions_count_witness :
    2 ≤ boardTwoEmpty.size ∧ inBounds boardTwoEmpty.size (0, 0) ∧
    ((isCorner boardTwoEmpty.size (0, 0) →
      (adjacentPositions boardTwoEmpty (0, 0)).card = 2) ∧
    (isBoundary boardTwoEmpty.size (0, 0) → ¬ isCorner boardTwoEmpty.size (0, 0) →
      (adjacentPositions boardTwoEmpty (0, 0)).card = 3) ∧
    (3 ≤ boardTwoEmpty.size → ¬ isBoundary boardTwoEmpty.size (0, 0) →
      (adjacentPositions boardTwoEmpty (0, 0)).card = 4) ∧
    (∀ q ∈ adjacentPositions boardTwoEmpty (0, 0),
      inBounds boardTwoEmpty.size q) ∧
    (0, 0) ∉ adjacentPositions boardTwoEmpty (0, 0)) :=
  ⟨by decide, by decide,
    adjacentPositions_count boardTwoEmpty (0, 0) (by decide) (by decide)⟩

end Godash
